import Mathlib

/-!
Verification of the action-item extraction engine of `sync.js`
(meeting-dashboard repository).

Strings are modelled as `List Char` (`Str`); JavaScript string operations
(`trim`, `toLowerCase`, `includes`, `startsWith`, `split`, `slice`,
`replace` with the concrete regexes of the source) are embedded as
executable functions on `Str`.  The regexes of the source are compiled by
hand into deterministic matching functions, following the backtracking
semantics of JavaScript regexes on these concrete patterns.  Character
classes (`\s`, `\w`, the `i` flag) are modelled on the code points that
can occur in the patterns; `toLowerCase` is modelled as ASCII lowercasing,
which agrees with JavaScript on all characters appearing in any pattern
of the source.  JavaScript `length`/`slice` count UTF-16 code units while
`List Char` counts code points; the two agree on all characters below
U+10000.
-/

/-- Strings as lists of characters. -/
abbrev Str := List Char

/-- JavaScript whitespace class `\s` (also the set trimmed by `trim`). -/
def isWsChar (c : Char) : Bool :=
  let n := c.toNat
  n = 9 || n = 10 || n = 11 || n = 12 || n = 13 || n = 32 ||
  n = 160 || n = 0x1680 || (0x2000 ≤ n && n ≤ 0x200a) ||
  n = 0x2028 || n = 0x2029 || n = 0x202f || n = 0x205f ||
  n = 0x3000 || n = 0xfeff

/-- JavaScript word-character class `\w` = `[A-Za-z0-9_]`. -/
def isWordChar (c : Char) : Bool :=
  let n := c.toNat
  (48 ≤ n && n ≤ 57) || (65 ≤ n && n ≤ 90) || (97 ≤ n && n ≤ 122) || n = 95

/-- Characters excluded by the regex dot: the JavaScript line
terminators LF, CR, U+2028, U+2029. -/
def notLineTerm (c : Char) : Bool :=
  let n := c.toNat
  !(n = 10 || n = 13 || n = 0x2028 || n = 0x2029)

/-- ASCII lowercasing of one character (model of `toLowerCase` per char). -/
def lowerChar (c : Char) : Char :=
  if 65 ≤ c.toNat ∧ c.toNat ≤ 90 then Char.ofNat (c.toNat + 32) else c

/-- Model of `String.prototype.toLowerCase`. -/
def lowerStr (l : Str) : Str := l.map lowerChar

/-- Model of `String.prototype.trim`: drop whitespace at both ends. -/
def trimStr (l : Str) : Str :=
  (((l.dropWhile isWsChar).reverse).dropWhile isWsChar).reverse

/-- Model of `String.prototype.startsWith` (also used for prefix tests
inside the hand-compiled regexes). -/
def startsWithStr : Str → Str → Bool
  | [], _ => true
  | _ :: _, [] => false
  | a :: ps, b :: ls => a == b && startsWithStr ps ls

/-- Model of `String.prototype.includes`: contiguous substring test. -/
def containsSub (sub : Str) : Str → Bool
  | [] => startsWithStr sub []
  | c :: r => startsWithStr sub (c :: r) || containsSub sub r

/-- Case-insensitive literal prefix test: the pattern (already lowercase)
against the lowercased input. -/
def ciStarts (pat l : Str) : Bool := startsWithStr pat (lowerStr l)

/-- Consume a literal prefix, returning the remainder on success. -/
def dropPref (w l : Str) : Option Str :=
  if startsWithStr w l then some (l.drop w.length) else none

/-- Length of the leading whitespace run (a greedy `\s*` / `\s+`). -/
def wsRunLen (l : Str) : Nat := (l.takeWhile isWsChar).length

/-- Model of `String.prototype.split("\n")`. -/
def splitNewlines : Str → List Str
  | [] => [[]]
  | c :: r =>
    if c = '\n' then [] :: splitNewlines r
    else
      match splitNewlines r with
      | h :: t => (c :: h) :: t
      | [] => [[c]]

/-! ### Section header patterns (`sectionPatterns`, source lines 95–102)

Each is tested with `.test(line)` on the trimmed line; all carry the `i`
flag, so the matchers below receive the lowercased line. -/

/-- `/^next\s*steps/i` -/
def matchNextSteps (l : Str) : Bool :=
  match dropPref "next".data l with
  | some r => startsWithStr "steps".data (r.dropWhile isWsChar)
  | none => false

/-- `/^action\s*items/i` -/
def matchActionItems (l : Str) : Bool :=
  match dropPref "action".data l with
  | some r => startsWithStr "items".data (r.dropWhile isWsChar)
  | none => false

/-- `/^follow[- ]?ups?/i` (the trailing `s?` constrains nothing in a
`test`, so only `up` must follow). -/
def matchFollowUps (l : Str) : Bool :=
  match dropPref "follow".data l with
  | some r =>
    startsWithStr "up".data r ||
    (match r with
     | c :: r2 => (c = '-' || c = ' ') && startsWithStr "up".data r2
     | [] => false)
  | none => false

/-- `/^to[- ]?do/i` -/
def matchToDo (l : Str) : Bool :=
  match dropPref "to".data l with
  | some r =>
    startsWithStr "do".data r ||
    (match r with
     | c :: r2 => (c = '-' || c = ' ') && startsWithStr "do".data r2
     | [] => false)
  | none => false

/-- Helper for `/^tasks?\s*:/i`: `\s*` then a colon. -/
def wsThenColon (l : Str) : Bool :=
  match l.dropWhile isWsChar with
  | ':' :: _ => true
  | _ => false

/-- `/^tasks?\s*:/i` -/
def matchTasks (l : Str) : Bool :=
  match dropPref "task".data l with
  | some r =>
    wsThenColon r ||
    (match r with
     | 's' :: r2 => wsThenColon r2
     | _ => false)
  | none => false

/-- `/^deliverables/i` -/
def matchDeliverables (l : Str) : Bool :=
  startsWithStr "deliverables".data l

/-- `sectionPatterns.some((p) => p.test(line))` -/
def matchesSection (l : Str) : Bool :=
  let d := lowerStr l
  matchNextSteps d || matchActionItems d || matchFollowUps d ||
  matchToDo d || matchTasks d || matchDeliverables d

/-! ### Section terminator patterns (`endPatterns`, source lines 105–109) -/

/-- `/^chat with meeting transcript/i` -/
def matchChat (l : Str) : Bool :=
  startsWithStr "chat with meeting transcript".data (lowerStr l)

/-- Is the head of the list a whitespace character? -/
def wsHead (l : Str) : Bool :=
  match l with
  | c :: _ => isWsChar c
  | [] => false

/-- `/^#{1,3}\s/`: one to three `#` immediately followed by whitespace. -/
def matchMdHeading (l : Str) : Bool :=
  match l with
  | '#' :: r1 =>
    wsHead r1 ||
    (match r1 with
     | '#' :: r2 =>
       wsHead r2 ||
       (match r2 with
        | '#' :: r3 => wsHead r3
        | _ => false)
     | _ => false)
  | _ => false

/-- `/^[A-Z][a-z]+ [A-Z][a-z]+ &/` (case sensitive). -/
def matchTwoCapsAmp (l : Str) : Bool :=
  match l with
  | c0 :: r =>
    (65 ≤ c0.toNat && c0.toNat ≤ 90) &&
    (let run1 := r.takeWhile (fun c => 97 ≤ c.toNat && c.toNat ≤ 122)
     !run1.isEmpty &&
     (match r.drop run1.length with
      | ' ' :: c1 :: r2 =>
        (65 ≤ c1.toNat && c1.toNat ≤ 90) &&
        (let run2 := r2.takeWhile (fun c => 97 ≤ c.toNat && c.toNat ≤ 122)
         !run2.isEmpty &&
         (match r2.drop run2.length with
          | ' ' :: '&' :: _ => true
          | _ => false))
      | _ => false))
  | [] => false

/-- `endPatterns.some((p) => p.test(line))` -/
def matchesEnd (l : Str) : Bool :=
  matchChat l || matchMdHeading l || matchTwoCapsAmp l

/-! ### The owner-prefix regex (source line 128)

`line.match(/^(\w+(?:\s\w+)?)\s*:/)`.  Returns the captured group 1 and
the length of the full match (`ownerMatch[0].length`).  The regex engine
first tries the optional `(?:\s\w+)` (greedy), then retries without it;
inside each branch the `\w+` and `\s*` runs are forced maximal because
the classes `\w`, `\s` and `:` are pairwise disjoint. -/

/-- With-second-word branch of the owner regex: one `\s`, a second
`\w+` run, then `\s*:`. -/
def ownerMatchTwo (w1 r1 : Str) : Option (Str × Nat) :=
  match r1 with
  | sep :: r2 =>
    if isWsChar sep ∧ r2.takeWhile isWordChar ≠ [] ∧
        wsThenColon (r2.drop (r2.takeWhile isWordChar).length) then
      some (w1 ++ sep :: r2.takeWhile isWordChar,
            w1.length + 1 + (r2.takeWhile isWordChar).length +
              wsRunLen (r2.drop (r2.takeWhile isWordChar).length) + 1)
    else none
  | [] => none

/-- `line.match(/^(\w+(?:\s\w+)?)\s*:/)` as (group 1, length of match 0). -/
def ownerMatch (l : Str) : Option (Str × Nat) :=
  if l.takeWhile isWordChar = [] then none
  else
    match ownerMatchTwo (l.takeWhile isWordChar)
        (l.drop (l.takeWhile isWordChar).length) with
    | some res => some res
    | none =>
      if wsThenColon (l.drop (l.takeWhile isWordChar).length) then
        some (l.takeWhile isWordChar,
              (l.takeWhile isWordChar).length +
                wsRunLen (l.drop (l.takeWhile isWordChar).length) + 1)
      else none

/-! ### Owner detection inside a section (source lines 144–153) -/

/-- `name.split(" ")[0]`: the first token of an attendee name. -/
def firstToken (name : Str) : Str := name.takeWhile (fun c => c ≠ ' ')

/-- One iteration test of the attendee loop, on the lowercased line. -/
def attendeeHit (lline : Str) (name : Str) : Bool :=
  let f := lowerStr (firstToken name)
  containsSub (f ++ " to ".data) lline ||
  containsSub (f ++ " will ".data) lline ||
  startsWithStr f lline

/-- The configured fallback owner (`let owner = "Blake"`). -/
def defaultOwner : Str := "Blake".data

/-- The attendee loop with `break`: first matching attendee wins, default
`"Blake"` otherwise. -/
def inferOwner (attendees : List Str) (line : Str) : Str :=
  match attendees with
  | [] => defaultOwner
  | name :: rest =>
    if attendeeHit (lowerStr line) name then name else inferOwner rest line

/-! ### The standalone action-sentence regex (source lines 162–174)

`/(?:Blake|Jacob|Brien|Cole|Cory|Ally|Jenna|Jennifer|Al)\s+(?:to|will|should|needs? to)\s+(.+)/i`,
unanchored: the engine scans match positions left to right and at each
position tries the name alternatives in written order; `needs? to`
expands (greedy `s?` first) to `needs to` then `need to`.  `match[0]`
runs from the match position through the greedy `(.+)`, which extends to
the next line terminator (or end of input). -/

/-- The name alternatives, lowercased, in alternation order. -/
def knownNames : List Str :=
  [ "blake".data, "jacob".data, "brien".data, "cole".data, "cory".data,
    "ally".data, "jenna".data, "jennifer".data, "al".data ]

/-- The modal alternatives, lowercased, in backtracking order. -/
def modalWords : List Str :=
  [ "to".data, "will".data, "should".data, "needs to".data, "need to".data ]

/-- One modal alternative followed by `\s+(.+)` at `r2`; `base` is the
length already consumed.  On success returns the match-0 length: the
greedy `(.+)` runs to the next line terminator. -/
def tryModalOne (base : Nat) (m r2 : Str) : Option Nat :=
  if ciStarts m r2 ∧ wsRunLen (r2.drop m.length) ≠ 0 ∧
      (r2.drop m.length).drop (wsRunLen (r2.drop m.length)) ≠ [] then
    some (base + m.length + wsRunLen (r2.drop m.length) +
      (((r2.drop m.length).drop
          (wsRunLen (r2.drop m.length))).takeWhile notLineTerm).length)
  else none

/-- Try the modal alternatives in backtracking order. -/
def tryModals (base : Nat) (r2 : Str) : List Str → Option Nat
  | [] => none
  | m :: rest =>
    match tryModalOne base m r2 with
    | some len => some len
    | none => tryModals base r2 rest

/-- Try one name alternative at the current position: the name literal,
then `\s+`, then the modal alternatives. -/
def tryName (n : Str) (rest : Str) : Option Nat :=
  if ciStarts n rest ∧ wsRunLen (rest.drop n.length) ≠ 0 then
    tryModals (n.length + wsRunLen (rest.drop n.length))
      ((rest.drop n.length).drop (wsRunLen (rest.drop n.length))) modalWords
  else none

/-- Try all name alternatives, in alternation order, at one position. -/
def standHere (rest : Str) : List Str → Option Nat
  | [] => none
  | n :: ns =>
    match tryName n rest with
    | some len => some len
    | none => standHere rest ns

/-- Scan match positions left to right; on success return `match[0]`. -/
def standScan : Str → Option Str
  | [] => none
  | c :: r =>
    match standHere (c :: r) knownNames with
    | some len => some ((c :: r).take len)
    | none => standScan r

/-- `line.match(actionPattern)`, returning `match[0]`. -/
def standaloneMatch (line : Str) : Option Str := standScan line

/-- A `\s+` run followed by one of the modal alternatives: the
`\s+(?:to|will|should|needs? to)` tail of the standalone owner regex. -/
def wsThenModal (r : Str) : Bool :=
  wsRunLen r != 0 && modalWords.any (fun m => ciStarts m (r.drop (wsRunLen r)))

/-- With-second-word branch of the standalone owner regex. -/
def ownerNameTwo (w1 r1 : Str) : Option Str :=
  match r1 with
  | sep :: r2 =>
    if isWsChar sep ∧ r2.takeWhile isWordChar ≠ [] ∧
        wsThenModal (r2.drop (r2.takeWhile isWordChar).length) then
      some (w1 ++ sep :: r2.takeWhile isWordChar)
    else none
  | [] => none

/-- `line.match(/^(\w+(?:\s\w+)?)\s+(?:to|will|should|needs? to)/i)`,
returning the captured group 1 (used for the standalone owner). -/
def ownerNameMatch (l : Str) : Option Str :=
  if l.takeWhile isWordChar = [] then none
  else
    match ownerNameTwo (l.takeWhile isWordChar)
        (l.drop (l.takeWhile isWordChar).length) with
    | some n => some n
    | none =>
      if wsThenModal (l.drop (l.takeWhile isWordChar).length) then
        some (l.takeWhile isWordChar)
      else none

/-! ### The per-line state machine (source lines 111–176) -/

/-- An extracted action item: `{ item, owner }`. -/
structure ActionItem where
  item : Str
  owner : Str
deriving DecidableEq

/-- The two loop variables `inActionSection` and `currentOwner`. -/
structure ScanState where
  inAction : Bool
  currentOwner : Option Str
deriving DecidableEq

/-- `line.replace(/^[-*•]\s*/, "")`: strip one leading bullet marker and
the whitespace after it. -/
def stripBullet (l : Str) : Str :=
  match l with
  | c :: r =>
    if c = '-' || c = '*' || c = '•' then r.dropWhile isWsChar else l
  | [] => []

/-- The two trailing `if` blocks of the loop body (source lines 142–175):
the in-section content rule and the standalone-sentence rule. -/
def laterRules (attendees : List Str) (s : ScanState) (line : Str) :
    List ActionItem :=
  (if s.inAction then
    (if 10 < line.length then
      [⟨stripBullet line, s.currentOwner.getD (inferOwner attendees line)⟩]
     else [])
   else []) ++
  (if s.inAction then []
   else
    match standaloneMatch line with
    | some m => [⟨m, (ownerNameMatch line).getD defaultOwner⟩]
    | none => [])

/-- One iteration of the `for` loop over lines (source lines 111–176):
returns the updated state and the items pushed for this line, in order.
`trimStr rawLine` plays the role of `const line = lines[i].trim()`. -/
def processLine (attendees : List Str) (s : ScanState) (rawLine : Str) :
    ScanState × List ActionItem :=
  if (trimStr rawLine).isEmpty then (s, [])
  else if matchesSection (trimStr rawLine) then (⟨true, s.currentOwner⟩, [])
  else if matchesEnd (trimStr rawLine) && s.inAction then
    (⟨false, s.currentOwner⟩, [])
  else
    match ownerMatch (trimStr rawLine) with
    | some nl =>
      if s.inAction then
        (⟨true, some nl.1⟩,
         if (trimStr ((trimStr rawLine).drop nl.2)).isEmpty then []
         else [⟨trimStr ((trimStr rawLine).drop nl.2), nl.1⟩])
      else (s, laterRules attendees s (trimStr rawLine))
    | none => (s, laterRules attendees s (trimStr rawLine))

/-- The whole loop over the line sequence. -/
def scanLines (attendees : List Str) (s : ScanState) :
    List Str → ScanState × List ActionItem
  | [] => (s, [])
  | l :: rest =>
    match processLine attendees s l with
    | (s1, items) =>
      match scanLines attendees s1 rest with
      | (s2, items2) => (s2, items ++ items2)

/-! ### Deduplication (source lines 178–185) -/

/-- `item.item.toLowerCase().slice(0, 50)` -/
def dedupKey (it : ActionItem) : Str := (lowerStr it.item).take 50

/-- The `filter` with the `seen` set, keeping first occurrences. -/
def dedupAux (seen : List Str) : List ActionItem → List ActionItem
  | [] => []
  | x :: xs =>
    if dedupKey x ∈ seen then dedupAux seen xs
    else x :: dedupAux (dedupKey x :: seen) xs

/-- The deduplication pass. -/
def dedup (l : List ActionItem) : List ActionItem := dedupAux [] l

/-- Placeholder item used only for positional indexing (`List.getD`) in
statements about the deduplication pass. -/
def defaultItem : ActionItem := ⟨[], []⟩

/-- `extractActionItems(panelText, meetingTitle, meetingDate, attendees)`
(source lines 87–186).  `meetingTitle` and `meetingDate` are unused by
the source function and kept for signature fidelity. -/
def extractActionItems (panelText : Str) (_meetingTitle _meetingDate : Str)
    (attendees : List Str) : List ActionItem :=
  dedup (scanLines attendees ⟨false, none⟩ (splitNewlines panelText)).2

/-- The items the standalone-sentence rule contributes for one trimmed
line while outside a section (the only emitting rule outside). -/
def standEmit (tl : Str) : List ActionItem :=
  match standaloneMatch tl with
  | some m => [⟨m, (ownerNameMatch tl).getD defaultOwner⟩]
  | none => []

/-- Standalone-rule emissions of a whole line sequence. -/
def standEmits : List Str → List ActionItem
  | [] => []
  | l :: rest => standEmit (trimStr l) ++ standEmits rest

/-- Wellformedness of an emitted item: the `text`/`owner` invariant of
the specification's data model. -/
def goodItem (it : ActionItem) : Prop :=
  it.item ≠ [] ∧ trimStr it.item = it.item ∧ it.owner ≠ []

instance (it : ActionItem) : Decidable (goodItem it) := by
  unfold goodItem
  infer_instance

/-! ## Helper lemmas -/

theorem dropWhile_head_false (p : Char → Bool) :
    ∀ (l : Str) (c : Char) (r : Str), l.dropWhile p = c :: r → p c = false := by
  intro l
  induction l with
  | nil => intro c r h; simp [List.dropWhile] at h
  | cons a t ih =>
    intro c r h
    by_cases hp : p a
    · rw [List.dropWhile_cons_of_pos hp] at h
      exact ih c r h
    · rw [List.dropWhile_cons_of_neg hp] at h
      cases h
      exact Bool.not_eq_true _ ▸ Bool.of_not_eq_true hp

theorem dropWhile_append_eq (p : Char → Bool) :
    ∀ l : Str, ∃ t : Str, t ++ l.dropWhile p = l := by
  intro l
  induction l with
  | nil => exact ⟨[], rfl⟩
  | cons a t ih =>
    by_cases hp : p a
    · obtain ⟨u, hu⟩ := ih
      exact ⟨a :: u, by simp [List.dropWhile_cons_of_pos hp, hu]⟩
    · exact ⟨[], by simp [List.dropWhile_cons_of_neg hp]⟩

theorem getLast?_append_right' :
    ∀ (l₁ l₂ : Str), l₂ ≠ [] → (l₁ ++ l₂).getLast? = l₂.getLast? := by
  intro l₁ l₂ h
  induction l₁ with
  | nil => rfl
  | cons a t ih =>
    rw [List.cons_append, List.getLast?_cons, ih]
    cases l₂ with
    | nil => exact absurd rfl h
    | cons b u => simp [List.getLast?_cons]

theorem mem_dropWhile_subset (p : Char → Bool) (l : Str) (c : Char)
    (h : c ∈ l.dropWhile p) : c ∈ l := by
  obtain ⟨t, ht⟩ := dropWhile_append_eq p l
  rw [← ht]
  exact List.mem_append_right t h

theorem getLast?_mem' : ∀ (l : Str) (c : Char), l.getLast? = some c → c ∈ l := by
  intro l
  induction l with
  | nil => intro c h; simp at h
  | cons a t ih =>
    intro c h
    cases t with
    | nil => simp at h; simp [h]
    | cons b u =>
      rw [List.getLast?_cons_cons] at h
      exact List.mem_cons_of_mem a (ih c h)

theorem getLast?_cons_of_ne_nil (a : Char) (l : Str) (h : l ≠ []) :
    (a :: l).getLast? = l.getLast? := by
  have : a :: l = [a] ++ l := rfl
  rw [this, getLast?_append_right' [a] l h]

theorem trimStr_head_not_ws (l : Str) (c : Char) (r : Str)
    (h : trimStr l = c :: r) : isWsChar c = false := by
  unfold trimStr at h
  have hBne : (l.dropWhile isWsChar).reverse.dropWhile isWsChar ≠ [] := by
    intro hb
    rw [hb] at h
    simp at h
  have h1 : ((l.dropWhile isWsChar).reverse.dropWhile isWsChar).getLast? = some c := by
    rw [← List.head?_reverse, h]
    rfl
  have h2 : (l.dropWhile isWsChar).reverse.getLast? = some c := by
    obtain ⟨t, ht⟩ := dropWhile_append_eq isWsChar (l.dropWhile isWsChar).reverse
    rw [← ht, getLast?_append_right' t _ hBne, h1]
  have h3 : (l.dropWhile isWsChar).head? = some c := by
    rw [← List.getLast?_reverse]
    exact h2
  cases hA : l.dropWhile isWsChar with
  | nil => rw [hA] at h3; simp at h3
  | cons a t =>
    rw [hA] at h3
    simp at h3
    exact h3 ▸ dropWhile_head_false isWsChar l a t hA

theorem trimStr_getLast_not_ws (l : Str) (c : Char)
    (h : (trimStr l).getLast? = some c) : isWsChar c = false := by
  unfold trimStr at h
  rw [List.getLast?_reverse] at h
  cases hB : (l.dropWhile isWsChar).reverse.dropWhile isWsChar with
  | nil => rw [hB] at h; simp at h
  | cons b u =>
    rw [hB] at h
    simp at h
    exact h ▸ dropWhile_head_false isWsChar _ b u hB

theorem trimStr_eq_self (l : Str)
    (hh : ∀ c r, l = c :: r → isWsChar c = false)
    (hl : ∀ c, l.getLast? = some c → isWsChar c = false) :
    trimStr l = l := by
  cases l with
  | nil => rfl
  | cons a t =>
    unfold trimStr
    have hA : (a :: t).dropWhile isWsChar = a :: t := by
      rw [List.dropWhile_cons_of_neg]
      simp [hh a t rfl]
    rw [hA]
    cases hrev : (a :: t).reverse with
    | nil => simp at hrev
    | cons b u =>
      have hb : (a :: t).getLast? = some b := by
        rw [← List.head?_reverse, hrev]
        rfl
      have hd : (b :: u).dropWhile isWsChar = b :: u := by
        rw [List.dropWhile_cons_of_neg]
        simp [hl b hb]
      rw [hd, ← hrev, List.reverse_reverse]

theorem trimStr_idem (l : Str) : trimStr (trimStr l) = trimStr l := by
  apply trimStr_eq_self
  · intro c r h
    exact trimStr_head_not_ws l c r h
  · intro c h
    exact trimStr_getLast_not_ws l c h

theorem stripBullet_good (line : Str) (htrim : trimStr line = line)
    (hlen : 1 < line.length) :
    stripBullet line ≠ [] ∧ trimStr (stripBullet line) = stripBullet line := by
  cases hc : line with
  | nil => rw [hc] at hlen; simp at hlen
  | cons c r =>
    have hrne : r ≠ [] := by
      intro hr
      rw [hc, hr] at hlen
      simp at hlen
    have hlastr : ∀ c', r.getLast? = some c' → isWsChar c' = false := by
      intro c' h'
      apply trimStr_getLast_not_ws line c'
      rw [htrim, hc, getLast?_cons_of_ne_nil c r hrne]
      exact h'
    have hred : stripBullet (c :: r) =
        if (c = '-' || c = '*' || c = '•' : Bool) then r.dropWhile isWsChar
        else c :: r := rfl
    rw [hred]
    by_cases hb : c = '-' ∨ c = '*' ∨ c = '•'
    · have hbe : (c = '-' || c = '*' || c = '•') = true := by
        rcases hb with h | h | h <;> simp [h]
      rw [if_pos hbe]
      have hne : r.dropWhile isWsChar ≠ [] := by
        intro hnil
        rw [List.dropWhile_eq_nil_iff] at hnil
        cases hgl : r.getLast? with
        | none => rw [List.getLast?_eq_none_iff] at hgl; exact hrne hgl
        | some y =>
          have hy := hlastr y hgl
          have := hnil y (getLast?_mem' r y hgl)
          rw [hy] at this
          cases this
      refine ⟨hne, trimStr_eq_self _ ?_ ?_⟩
      · intro c' r' h'
        exact dropWhile_head_false isWsChar r c' r' h'
      · intro c' h'
        apply hlastr c'
        obtain ⟨t, ht⟩ := dropWhile_append_eq isWsChar r
        rw [← ht, getLast?_append_right' t _ hne]
        exact h'
    · have hbe : (c = '-' || c = '*' || c = '•') = false := by
        simp only [Bool.or_eq_false_iff]
        push_neg at hb
        simp [decide_eq_false hb.1, decide_eq_false hb.2.1, decide_eq_false hb.2.2]
      rw [if_neg (by simp [hbe])]
      rw [hc] at htrim
      exact ⟨by simp, htrim⟩

theorem laterRules_outside (att : List Str) (o : Option Str) (line : Str) :
    laterRules att ⟨false, o⟩ line = standEmit line := by
  simp [laterRules, standEmit]

theorem processLine_outside (att : List Str) (o : Option Str) (l : Str)
    (hsec : matchesSection (trimStr l) = false) :
    processLine att ⟨false, o⟩ l = (⟨false, o⟩, standEmit (trimStr l)) := by
  unfold processLine
  cases ht : trimStr l with
  | nil => rfl
  | cons c r =>
    rw [ht] at hsec
    simp only [List.isEmpty_cons, hsec, Bool.false_eq_true, if_false]
    cases how : ownerMatch (c :: r) with
    | some nl => simp [laterRules_outside]
    | none => simp [laterRules_outside]

theorem scanLines_outside (att : List Str) (o : Option Str) :
    ∀ lines : List Str, (∀ l ∈ lines, matchesSection (trimStr l) = false) →
    scanLines att ⟨false, o⟩ lines = (⟨false, o⟩, standEmits lines) := by
  intro lines
  induction lines with
  | nil => intro _; rfl
  | cons l rest ih =>
    intro h
    have h1 := h l (List.mem_cons_self l rest)
    have h2 : ∀ x ∈ rest, matchesSection (trimStr x) = false :=
      fun x hx => h x (List.mem_cons_of_mem l hx)
    simp only [scanLines]
    rw [processLine_outside att o l h1, ih h2]
    rfl

theorem standEmits_eq_nil (ls : List Str)
    (h : ∀ l ∈ ls, standaloneMatch (trimStr l) = none) : standEmits ls = [] := by
  induction ls with
  | nil => rfl
  | cons l rest ih =>
    simp only [standEmits]
    rw [ih (fun x hx => h x (List.mem_cons_of_mem l hx))]
    have h1 := h l (List.mem_cons_self l rest)
    simp [standEmit, h1]

/-! ## Claim theorems -/

/-- C1: for every panel text in which no (trimmed) line matches a section
header pattern and no (trimmed) line matches the standalone
name-plus-modal pattern, `extractActionItems` returns the empty list,
for every attendee list. -/
theorem extract_no_header_no_modal_empty (p t d : Str) (att : List Str)
    (h : ∀ l ∈ splitNewlines p,
      matchesSection (trimStr l) = false ∧ standaloneMatch (trimStr l) = none) :
    extractActionItems p t d att = [] := by
  unfold extractActionItems
  rw [scanLines_outside att none (splitNewlines p) (fun l hl => (h l hl).1)]
  have hnil : standEmits (splitNewlines p) = [] :=
    standEmits_eq_nil (splitNewlines p) (fun l hl => (h l hl).2)
  rw [hnil]
  rfl

/-- Witness for C1 at a concrete two-line panel text with neither a
header line nor a name-plus-modal sentence. -/
theorem extract_no_header_no_modal_empty_witness :
    extractActionItems "Hello there\nWe discussed the roadmap".data [] [] [] = [] :=
  extract_no_header_no_modal_empty _ _ _ _ (by decide)

/-- C6: extraction is deterministic: two invocations on the same panel
text and attendee list produce identical ordered output lists (in this
embedding `extractActionItems` is a pure function, so the two runs are
definitionally the same computation). -/
theorem extract_deterministic (p t d : Str) (att : List Str) :
    extractActionItems p t d att = extractActionItems p t d att := rfl

/-- C7: extraction is total — `extractActionItems` is a total function in
this embedding, defined on every line sequence — and on empty input it
returns the empty list. -/
theorem extract_empty_input (t d : Str) (att : List Str) :
    extractActionItems [] t d att = [] := rfl

theorem processLine_header (att : List Str) (s : ScanState) (l : Str)
    (hsec : matchesSection (trimStr l) = true) :
    processLine att s l = (⟨true, s.currentOwner⟩, []) := by
  unfold processLine
  cases ht : trimStr l with
  | nil => rw [ht] at hsec; exact absurd hsec (by decide)
  | cons c r =>
    rw [ht] at hsec
    simp only [List.isEmpty_cons, hsec, if_true, Bool.false_eq_true, if_false]

theorem processLine_end (att : List Str) (s : ScanState) (l : Str)
    (hsec : matchesSection (trimStr l) = false)
    (hend : matchesEnd (trimStr l) = true)
    (hin : s.inAction = true) :
    processLine att s l = (⟨false, s.currentOwner⟩, []) := by
  unfold processLine
  cases ht : trimStr l with
  | nil => rw [ht] at hend; exact absurd hend (by decide)
  | cons c r =>
    rw [ht] at hsec hend
    simp only [List.isEmpty_cons, hsec, hend, hin, Bool.false_eq_true, if_false,
      Bool.and_self, if_true]

theorem processLine_content (att : List Str) (s : ScanState) (l : Str)
    (hin : s.inAction = true)
    (hsec : matchesSection (trimStr l) = false)
    (hend : matchesEnd (trimStr l) = false)
    (hom : ownerMatch (trimStr l) = none)
    (hlen : 10 < (trimStr l).length) :
    processLine att s l =
      (s, [⟨stripBullet (trimStr l),
            s.currentOwner.getD (inferOwner att (trimStr l))⟩]) := by
  unfold processLine
  cases ht : trimStr l with
  | nil => rw [ht] at hlen; simp at hlen
  | cons c r =>
    rw [ht] at hsec hend hom hlen
    simp only [List.isEmpty_cons, hsec, hend, hom, Bool.false_eq_true, if_false,
      Bool.false_and]
    simp only [List.length_cons] at hlen
    simp [laterRules, hin]
    omega

/-- C2 (counterexample to the claim as stated): the line `"Zara: hello"`
matches the owner-prefix pattern, yet when processed outside a section it
leaves `currentOwner` unset, and in the full run the later in-section
line is attributed to the default owner `"Blake"`, not to `"Zara"`. -/
theorem ownerPrefix_outside_counterexample :
    (ownerMatch (trimStr "Zara: hello".data)).isSome = true ∧
    processLine [] ⟨false, none⟩ "Zara: hello".data = (⟨false, none⟩, []) ∧
    extractActionItems "Zara: hello\nNext Steps\nreview the documents today".data
      [] [] [] =
      [⟨"review the documents today".data, "Blake".data⟩] :=
  ⟨by decide, by decide, by decide⟩

/-- C2 (amended): a line matching the owner-prefix regex — processed when
it is neither blank, a header, nor an active terminator — sets
`currentOwner` to the captured name and emits a Candidate exactly when
trailing text remains, but only when `insideSection` is true at that
line; when `insideSection` is false the state (including `currentOwner`)
is left unchanged. -/
theorem ownerPrefix_only_inside (att : List Str) (s : ScanState) (l : Str)
    (name : Str) (len : Nat)
    (hsec : matchesSection (trimStr l) = false)
    (hend : (matchesEnd (trimStr l) && s.inAction) = false)
    (hom : ownerMatch (trimStr l) = some (name, len)) :
    (s.inAction = true →
      processLine att s l =
        (⟨true, some name⟩,
         if (trimStr ((trimStr l).drop len)).isEmpty then []
         else [⟨trimStr ((trimStr l).drop len), name⟩])) ∧
    (s.inAction = false → (processLine att s l).1 = s) := by
  constructor
  · intro hin
    unfold processLine
    cases ht : trimStr l with
    | nil =>
      rw [ht] at hom
      have hnone : ownerMatch ([] : Str) = none := rfl
      rw [hnone] at hom
      cases hom
    | cons c r =>
      rw [ht] at hsec hend hom
      rw [hin] at hend
      simp only [List.isEmpty_cons, hsec, hend, hom, Bool.false_eq_true, if_false,
        hin, if_true]
  · intro hout
    unfold processLine
    cases ht : trimStr l with
    | nil =>
      rw [ht] at hom
      have hnone : ownerMatch ([] : Str) = none := rfl
      rw [hnone] at hom
      cases hom
    | cons c r =>
      rw [ht] at hsec hend hom
      rw [hout] at hend ⊢
      simp only [List.isEmpty_cons, hsec, hom, Bool.false_eq_true, if_false,
        Bool.and_false]

/-- Witness for C2 (amended) at the in-section line `"Blake: send the
deck"`. -/
theorem ownerPrefix_only_inside_witness :
    processLine [] ⟨true, none⟩ "Blake: send the deck".data =
      (⟨true, some "Blake".data⟩, [⟨"send the deck".data, "Blake".data⟩]) := by
  have h := (ownerPrefix_only_inside [] ⟨true, none⟩ "Blake: send the deck".data
    "Blake".data 6 (by decide) (by decide) (by decide)).1 rfl
  exact h.trans (by decide)

/-- C3 (counterexample to the claim as stated): inside a section, the
line `"Note Jacob will review the budget figures"` matches the
name-plus-modal pattern (second conjunct), yet the whole extraction
emits exactly one item — the in-section one — and no additional
Candidate with the matched sentence `"Jacob will review the budget
figures"` and owner `"Jacob"`. -/
theorem standalone_inside_counterexample :
    extractActionItems
      "Next Steps\nNote Jacob will review the budget figures".data [] [] [] =
      [⟨"Note Jacob will review the budget figures".data, "Blake".data⟩] ∧
    standaloneMatch (trimStr "Note Jacob will review the budget figures".data) =
      some "Jacob will review the budget figures".data :=
  ⟨by decide, by decide⟩

/-- C3 (amended): the standalone name-plus-modal rule fires only when
`insideSection` is false at the line: there it emits exactly one
Candidate whose text is `match[0]` (the matched sentence from the leading
name onwards) and whose owner is the name captured by the anchored
owner regex, defaulting to `"Blake"`; the state is left unchanged. -/
theorem standalone_only_outside (att : List Str) (s : ScanState) (l : Str)
    (m : Str)
    (hout : s.inAction = false)
    (hsec : matchesSection (trimStr l) = false)
    (hm : standaloneMatch (trimStr l) = some m) :
    processLine att s l =
      (s, [⟨m, (ownerNameMatch (trimStr l)).getD defaultOwner⟩]) := by
  obtain ⟨b, o⟩ := s
  simp only at hout
  subst hout
  rw [processLine_outside att o l hsec]
  simp [standEmit, hm]

/-- Witness for C3 (amended) at the spec's own example line. -/
theorem standalone_only_outside_witness :
    processLine [] ⟨false, none⟩
      "Jacob to review the contract by Friday".data =
      (⟨false, none⟩,
       [⟨"Jacob to review the contract by Friday".data, "Jacob".data⟩]) := by
  have h := standalone_only_outside [] ⟨false, none⟩
    "Jacob to review the contract by Friday".data
    "Jacob to review the contract by Friday".data rfl (by decide) (by decide)
  exact h.trans (by decide)

theorem mdHeading_shape : ∀ l : Str, matchMdHeading l = true → ∃ r, l = '#' :: r := by
  intro l h
  unfold matchMdHeading at h
  split at h
  · next r1 => exact ⟨r1, rfl⟩
  · next => cases h

/-- C8: while inside a section, a markdown-heading line (1–3 `#` then
whitespace) flips `insideSection` to false and is consumed with no
emission; and from outside a section, as long as no line matches a
header pattern, the scan emits only standalone-rule items (no in-section
extraction) and stays outside, with `currentOwner` unchanged. -/
theorem heading_closes_section (att : List Str) (s : ScanState) (l : Str)
    (o : Option Str) (lines : List Str)
    (hin : s.inAction = true)
    (hhd : matchMdHeading (trimStr l) = true)
    (hns : ∀ x ∈ lines, matchesSection (trimStr x) = false) :
    processLine att s l = (⟨false, s.currentOwner⟩, []) ∧
    scanLines att ⟨false, o⟩ lines = (⟨false, o⟩, standEmits lines) := by
  constructor
  · obtain ⟨r, hr⟩ := mdHeading_shape _ hhd
    have hsec : matchesSection (trimStr l) = false := by rw [hr]; rfl
    have hend : matchesEnd (trimStr l) = true := by
      rw [hr] at hhd ⊢
      simp [matchesEnd, hhd]
    exact processLine_end att s l hsec hend hin
  · exact scanLines_outside att o lines hns

/-- Witness for C8 with the spec's `"## Summary"` heading and a
subsequent content line. -/
theorem heading_closes_section_witness :
    processLine [] ⟨true, none⟩ "## Summary".data = (⟨false, none⟩, []) ∧
    scanLines [] ⟨false, none⟩ [ "we discussed many things".data ] =
      (⟨false, none⟩, []) := by
  have h := heading_closes_section [] ⟨true, none⟩ "## Summary".data none
    [ "we discussed many things".data ] rfl (by decide) (by decide)
  exact ⟨h.1, h.2.trans (by decide)⟩

/-- C9: attendee matching scans the attendee list in order, testing each
attendee's first token against the line, and the first hit wins (general
conjunct); concretely, with attendees `["Jenna Smith", "Cole Diaz"]` the
in-section line `"Jenna will send invites"` (with `currentOwner` unset)
is attributed to the full name `"Jenna Smith"`. -/
theorem attendee_full_name :
    (∀ (line : Str) (pre : List Str) (a : Str) (post : List Str),
      (∀ b ∈ pre, attendeeHit (lowerStr line) b = false) →
      attendeeHit (lowerStr line) a = true →
      inferOwner (pre ++ a :: post) line = a) ∧
    extractActionItems "Next Steps\nJenna will send invites".data [] []
      [ "Jenna Smith".data, "Cole Diaz".data ] =
      [⟨"Jenna will send invites".data, "Jenna Smith".data⟩] := by
  constructor
  · intro line pre a post hpre ha
    induction pre with
    | nil => simp [inferOwner, ha]
    | cons b rest ih =>
      have hb := hpre b (List.mem_cons_self b rest)
      simp only [List.cons_append, inferOwner, hb, Bool.false_eq_true, if_false]
      exact ih (fun x hx => hpre x (List.mem_cons_of_mem b hx))
  · decide

/-- Witness for C9: the general first-match rule applied at the concrete
attendee list and line of the claim. -/
theorem attendee_full_name_witness :
    inferOwner [ "Jenna Smith".data, "Cole Diaz".data ]
      "Jenna will send invites".data = "Jenna Smith".data := by
  have h := attendee_full_name.1 "Jenna will send invites".data []
    "Jenna Smith".data [ "Cole Diaz".data ] (by decide) (by decide)
  simpa using h

/-- C10: `currentOwner` survives header lines and terminator lines
unchanged (first two conjuncts), and in the concrete close-then-reopen
scenario — a terminator, a new header, then a long content line — the
later section's in-section candidate is attributed to the carried
`currentOwner`, overriding per-line attendee inference and the default
owner (third conjunct). -/
theorem owner_carries_across_sections :
    (∀ (att : List Str) (s : ScanState) (l : Str),
      matchesSection (trimStr l) = true →
      processLine att s l = (⟨true, s.currentOwner⟩, [])) ∧
    (∀ (att : List Str) (s : ScanState) (l : Str),
      matchesSection (trimStr l) = false → matchesEnd (trimStr l) = true →
      s.inAction = true →
      processLine att s l = (⟨false, s.currentOwner⟩, [])) ∧
    (∀ (att : List Str) (o : Str) (s : ScanState) (endL hdrL cL : Str),
      s.inAction = true → s.currentOwner = some o →
      matchesSection (trimStr endL) = false → matchesEnd (trimStr endL) = true →
      matchesSection (trimStr hdrL) = true →
      matchesSection (trimStr cL) = false → matchesEnd (trimStr cL) = false →
      ownerMatch (trimStr cL) = none → 10 < (trimStr cL).length →
      scanLines att s [endL, hdrL, cL] =
        (⟨true, some o⟩, [⟨stripBullet (trimStr cL), o⟩])) := by
  refine ⟨processLine_header, processLine_end, ?_⟩
  intro att o s endL hdrL cL hin hown hsec1 hend1 hsec2 hsec3 hend3 hom3 hlen3
  simp only [scanLines]
  rw [processLine_end att s endL hsec1 hend1 hin, hown]
  rw [processLine_header att ⟨false, some o⟩ hdrL hsec2]
  rw [processLine_content att ⟨true, some o⟩ cL rfl hsec3 hend3 hom3 hlen3]
  rfl

/-- Witness for C10: with `currentOwner = "Zed"` carried into the scan,
a `"## Done"` terminator, an `"Action Items"` header, and a long content
line still yield owner `"Zed"`, not the attendee `"Ava Lee"` and not the
default `"Blake"`. -/
theorem owner_carries_across_sections_witness :
    scanLines [ "Ava Lee".data ] ⟨true, some "Zed".data⟩
      [ "## Done".data, "Action Items".data, "finish the big report".data ] =
      (⟨true, some "Zed".data⟩,
       [⟨"finish the big report".data, "Zed".data⟩]) := by
  have h := owner_carries_across_sections.2.2 [ "Ava Lee".data ] "Zed".data
    ⟨true, some "Zed".data⟩ "## Done".data "Action Items".data
    "finish the big report".data rfl rfl (by decide) (by decide) (by decide)
    (by decide) (by decide) (by decide) (by decide)
  exact h.trans (by decide)

theorem dedupAux_sublist : ∀ (l : List ActionItem) (seen : List Str),
    (dedupAux seen l).Sublist l := by
  intro l
  induction l with
  | nil => intro seen; exact List.Sublist.refl []
  | cons x xs ih =>
    intro seen
    unfold dedupAux
    by_cases hx : dedupKey x ∈ seen
    · rw [if_pos hx]
      exact (ih seen).cons x
    · rw [if_neg hx]
      exact (ih (dedupKey x :: seen)).cons₂ x

theorem dedupAux_not_seen : ∀ (l : List ActionItem) (seen : List Str)
    (x : ActionItem), x ∈ dedupAux seen l → dedupKey x ∉ seen := by
  intro l
  induction l with
  | nil => intro seen x hx; cases hx
  | cons y ys ih =>
    intro seen x hx
    unfold dedupAux at hx
    by_cases hy : dedupKey y ∈ seen
    · rw [if_pos hy] at hx
      exact ih seen x hx
    · rw [if_neg hy] at hx
      rcases List.mem_cons.mp hx with h | h
      · rw [h]; exact hy
      · have := ih (dedupKey y :: seen) x h
        exact fun hc => this (List.mem_cons_of_mem _ hc)

theorem dedupAux_keys_nodup : ∀ (l : List ActionItem) (seen : List Str),
    ((dedupAux seen l).map dedupKey).Nodup := by
  intro l
  induction l with
  | nil => intro seen; exact List.nodup_nil
  | cons y ys ih =>
    intro seen
    unfold dedupAux
    by_cases hy : dedupKey y ∈ seen
    · rw [if_pos hy]; exact ih seen
    · rw [if_neg hy]
      rw [List.map_cons, List.nodup_cons]
      refine ⟨?_, ih (dedupKey y :: seen)⟩
      intro hmem
      obtain ⟨z, hz, hzk⟩ := List.mem_map.mp hmem
      have := dedupAux_not_seen ys (dedupKey y :: seen) z hz
      exact this (hzk ▸ List.mem_cons_self _ _)

theorem dedupAux_complete : ∀ (l : List ActionItem) (seen : List Str)
    (x : ActionItem), x ∈ l →
    dedupKey x ∈ seen ∨ dedupKey x ∈ (dedupAux seen l).map dedupKey := by
  intro l
  induction l with
  | nil => intro seen x hx; cases hx
  | cons y ys ih =>
    intro seen x hx
    unfold dedupAux
    rcases List.mem_cons.mp hx with h | h
    · by_cases hy : dedupKey y ∈ seen
      · rw [h]; exact Or.inl hy
      · rw [if_neg hy, h, List.map_cons]
        exact Or.inr (List.mem_cons_self _ _)
    · by_cases hy : dedupKey y ∈ seen
      · rw [if_pos hy]
        exact ih seen x h
      · rw [if_neg hy, List.map_cons]
        rcases ih (dedupKey y :: seen) x h with hs | hm
        · rcases List.mem_cons.mp hs with he | hs2
          · exact Or.inr (he ▸ List.mem_cons_self _ _)
          · exact Or.inl hs2
        · exact Or.inr (List.mem_cons_of_mem _ hm)

theorem dedupAux_cons_mem (seen : List Str) (y : ActionItem)
    (ys : List ActionItem) (h : dedupKey y ∈ seen) :
    dedupAux seen (y :: ys) = dedupAux seen ys := by
  simp only [dedupAux]
  rw [if_pos h]

theorem dedupAux_cons_not_mem (seen : List Str) (y : ActionItem)
    (ys : List ActionItem) (h : dedupKey y ∉ seen) :
    dedupAux seen (y :: ys) = y :: dedupAux (dedupKey y :: seen) ys := by
  simp only [dedupAux]
  rw [if_neg h]

theorem dedupAux_idem : ∀ (l : List ActionItem) (seen : List Str),
    dedupAux seen (dedupAux seen l) = dedupAux seen l := by
  intro l
  induction l with
  | nil => intro seen; rfl
  | cons y ys ih =>
    intro seen
    by_cases hy : dedupKey y ∈ seen
    · rw [dedupAux_cons_mem seen y ys hy]
      exact ih seen
    · rw [dedupAux_cons_not_mem seen y ys hy,
        dedupAux_cons_not_mem seen y _ hy, ih (dedupKey y :: seen)]

theorem dedupAux_first : ∀ (l : List ActionItem) (seen : List Str) (i : Nat),
    i < l.length →
    dedupKey (l.getD i defaultItem) ∉ seen →
    (∀ j, j < i → dedupKey (l.getD j defaultItem) ≠ dedupKey (l.getD i defaultItem)) →
    l.getD i defaultItem ∈ dedupAux seen l := by
  intro l
  induction l with
  | nil => intro seen i hi; simp at hi
  | cons y ys ih =>
    intro seen i hi hns hfirst
    unfold dedupAux
    cases i with
    | zero =>
      simp only [List.getD_cons_zero] at hns ⊢
      rw [if_neg hns]
      exact List.mem_cons_self _ _
    | succ i' =>
      simp only [List.getD_cons_succ] at hns hfirst ⊢
      by_cases hy : dedupKey y ∈ seen
      · rw [if_pos hy]
        refine ih seen i' (by simpa using hi) hns ?_
        intro j hj
        have := hfirst (j + 1) (by omega)
        simpa using this
      · rw [if_neg hy]
        refine List.mem_cons_of_mem _ ?_
        refine ih (dedupKey y :: seen) i' (by simpa using hi) ?_ ?_
        · intro hc
          rcases List.mem_cons.mp hc with he | hs
          · have h0 := hfirst 0 (by omega)
            simp only [List.getD_cons_zero] at h0
            exact h0 he.symm
          · exact hns hs
        · intro j hj
          have := hfirst (j + 1) (by omega)
          simpa using this

theorem dedupAux_first_conv : ∀ (l : List ActionItem) (seen : List Str)
    (x : ActionItem), x ∈ dedupAux seen l →
    ∃ i, ∃ _ : i < l.length, x = l.getD i defaultItem ∧
      dedupKey x ∉ seen ∧
      ∀ j, j < i → dedupKey (l.getD j defaultItem) ≠ dedupKey x := by
  intro l
  induction l with
  | nil => intro seen x hx; cases hx
  | cons y ys ih =>
    intro seen x hx
    unfold dedupAux at hx
    by_cases hy : dedupKey y ∈ seen
    · rw [if_pos hy] at hx
      obtain ⟨i, hi, heq, hns, hfirst⟩ := ih seen x hx
      refine ⟨i + 1, by simpa using Nat.succ_lt_succ hi, by simpa using heq, hns, ?_⟩
      intro j hj
      cases j with
      | zero =>
        simp only [List.getD_cons_zero]
        intro hc
        exact hns (hc ▸ hy)
      | succ j' =>
        simp only [List.getD_cons_succ]
        exact hfirst j' (by omega)
    · rw [if_neg hy] at hx
      rcases List.mem_cons.mp hx with h | h
      · refine ⟨0, by simp, by simpa using h, h ▸ hy, ?_⟩
        intro j hj
        omega
      · obtain ⟨i, hi, heq, hns, hfirst⟩ := ih (dedupKey y :: seen) x h
        have hne : dedupKey x ≠ dedupKey y :=
          fun hc => hns (hc ▸ List.mem_cons_self _ _)
        have hnseen : dedupKey x ∉ seen :=
          fun hc => hns (List.mem_cons_of_mem _ hc)
        refine ⟨i + 1, by simpa using Nat.succ_lt_succ hi, by simpa using heq,
          hnseen, ?_⟩
        intro j hj
        cases j with
        | zero =>
          simp only [List.getD_cons_zero]
          exact fun hc => hne hc.symm
        | succ j' =>
          simp only [List.getD_cons_succ]
          exact hfirst j' (by omega)

/-- C5: the deduplication pass is order-preserving (a sublist of its
input), its output keys (lowercased 50-character prefixes) are pairwise
distinct, every input candidate's key survives, any input position whose
key has no earlier occurrence is kept, every kept candidate is such a
first occurrence, and the pass is idempotent. -/
theorem dedup_spec (l : List ActionItem) :
    (dedup l).Sublist l ∧
    ((dedup l).map dedupKey).Nodup ∧
    (∀ x ∈ l, dedupKey x ∈ (dedup l).map dedupKey) ∧
    (∀ i, i < l.length →
      (∀ j, j < i →
        dedupKey (l.getD j defaultItem) ≠ dedupKey (l.getD i defaultItem)) →
      l.getD i defaultItem ∈ dedup l) ∧
    (∀ x ∈ dedup l, ∃ i, ∃ _ : i < l.length, x = l.getD i defaultItem ∧
      ∀ j, j < i → dedupKey (l.getD j defaultItem) ≠ dedupKey x) ∧
    dedup (dedup l) = dedup l := by
  refine ⟨dedupAux_sublist l [], dedupAux_keys_nodup l [], ?_, ?_, ?_,
    dedupAux_idem l []⟩
  · intro x hx
    rcases dedupAux_complete l [] x hx with h | h
    · cases h
    · exact h
  · intro i hi hfirst
    exact dedupAux_first l [] i hi (by simp) hfirst
  · intro x hx
    obtain ⟨i, hi, heq, _, hfirst⟩ := dedupAux_first_conv l [] x hx
    exact ⟨i, hi, heq, hfirst⟩

/-- Witness for C5: two candidates whose texts agree case-insensitively
on their 50-character prefixes; the theorem, applied at this list and
index 0, keeps the first, and the pass is idempotent there. -/
theorem dedup_spec_witness :
    (⟨"Send the deck".data, "A".data⟩ : ActionItem) ∈
      dedup [⟨"Send the deck".data, "A".data⟩,
             ⟨"send the DECK".data, "B".data⟩] ∧
    dedup (dedup [(⟨"Send the deck".data, "A".data⟩ : ActionItem),
             ⟨"send the DECK".data, "B".data⟩]) =
      dedup [⟨"Send the deck".data, "A".data⟩,
             ⟨"send the DECK".data, "B".data⟩] := by
  have h := dedup_spec [⟨"Send the deck".data, "A".data⟩,
             ⟨"send the DECK".data, "B".data⟩]
  refine ⟨?_, h.2.2.2.2.2⟩
  have h4 := h.2.2.2.1 0 (by decide) (by intro j hj; omega)
  simpa using h4

theorem splitNewlines_ne_nil : ∀ p : Str, splitNewlines p ≠ [] := by
  intro p
  cases p with
  | nil => simp [splitNewlines]
  | cons a r =>
    unfold splitNewlines
    by_cases ha : a = '\n'
    · rw [if_pos ha]; simp
    · rw [if_neg ha]
      cases hs : splitNewlines r with
      | nil => simp
      | cons h t => simp

theorem splitNewlines_chars : ∀ (p : Str) (l : Str), l ∈ splitNewlines p →
    ∀ c ∈ l, c ∈ p ∧ c ≠ '\n' := by
  intro p
  induction p with
  | nil =>
    intro l hl c hc
    simp [splitNewlines] at hl
    rw [hl] at hc
    cases hc
  | cons a r ih =>
    intro l hl c hc
    unfold splitNewlines at hl
    by_cases ha : a = '\n'
    · rw [if_pos ha] at hl
      rcases List.mem_cons.mp hl with h | h
      · rw [h] at hc; cases hc
      · obtain ⟨h1, h2⟩ := ih l h c hc
        exact ⟨List.mem_cons_of_mem a h1, h2⟩
    · rw [if_neg ha] at hl
      cases hs : splitNewlines r with
      | nil => exact absurd hs (splitNewlines_ne_nil r)
      | cons hh tt =>
        rw [hs] at hl
        rcases List.mem_cons.mp hl with h | h
        · rw [h] at hc
          rcases List.mem_cons.mp hc with h2 | h2
          · exact ⟨h2 ▸ List.mem_cons_self a r, h2 ▸ ha⟩
          · obtain ⟨h3, h4⟩ := ih hh (hs ▸ List.mem_cons_self hh tt) c h2
            exact ⟨List.mem_cons_of_mem a h3, h4⟩
        · obtain ⟨h3, h4⟩ := ih l (hs ▸ List.mem_cons_of_mem hh h) c hc
          exact ⟨List.mem_cons_of_mem a h3, h4⟩

theorem trimStr_mem_subset (l : Str) (c : Char) (h : c ∈ trimStr l) : c ∈ l := by
  unfold trimStr at h
  rw [List.mem_reverse] at h
  have h2 := mem_dropWhile_subset isWsChar _ c h
  rw [List.mem_reverse] at h2
  exact mem_dropWhile_subset isWsChar l c h2

theorem lowerChar_of_ws (c : Char) (h : isWsChar c = true) : lowerChar c = c := by
  unfold lowerChar
  rw [if_neg]
  unfold isWsChar at h
  simp only [Bool.or_eq_true, decide_eq_true_eq, Bool.and_eq_true] at h
  omega

theorem startsWithStr_length_le :
    ∀ (p l : Str), startsWithStr p l = true → p.length ≤ l.length := by
  intro p
  induction p with
  | nil => intro l _; simp
  | cons a ps ih =>
    intro l h
    cases l with
    | nil => simp [startsWithStr] at h
    | cons b ls =>
      simp only [startsWithStr, Bool.and_eq_true] at h
      have := ih ls h.2
      simp only [List.length_cons]
      omega

theorem wsRunLen_le (l : Str) : wsRunLen l ≤ l.length := by
  unfold wsRunLen
  induction l with
  | nil => simp
  | cons a r ih =>
    by_cases ha : isWsChar a
    · rw [List.takeWhile_cons_of_pos ha]
      simp only [List.length_cons]
      omega
    · rw [List.takeWhile_cons_of_neg ha]
      simp

theorem ownerMatchTwo_name (w1 : Str) (sep : Char) (r2 name : Str) (len : Nat)
    (h : ownerMatchTwo w1 (sep :: r2) = some (name, len)) :
    name = w1 ++ sep :: r2.takeWhile isWordChar := by
  have hred : ownerMatchTwo w1 (sep :: r2) =
      (if isWsChar sep ∧ r2.takeWhile isWordChar ≠ [] ∧
          wsThenColon (r2.drop (r2.takeWhile isWordChar).length) then
        some (w1 ++ sep :: r2.takeWhile isWordChar,
              w1.length + 1 + (r2.takeWhile isWordChar).length +
                wsRunLen (r2.drop (r2.takeWhile isWordChar).length) + 1)
       else none) := rfl
  rw [hred] at h
  by_cases hc : isWsChar sep ∧ r2.takeWhile isWordChar ≠ [] ∧
      wsThenColon (r2.drop (r2.takeWhile isWordChar).length)
  · rw [if_pos hc] at h
    exact (Prod.mk.injEq _ _ _ _ ▸ Option.some.inj h).1.symm
  · rw [if_neg hc] at h
    cases h

theorem ownerMatch_name_ne_nil (l name : Str) (len : Nat)
    (h : ownerMatch l = some (name, len)) : name ≠ [] := by
  unfold ownerMatch at h
  by_cases hw1 : l.takeWhile isWordChar = []
  · rw [if_pos hw1] at h; cases h
  · rw [if_neg hw1] at h
    cases htwo : ownerMatchTwo (l.takeWhile isWordChar)
        (l.drop (l.takeWhile isWordChar).length) with
    | some res =>
      rw [htwo] at h
      have h2 : res = (name, len) := Option.some.inj h
      cases hr : l.drop (l.takeWhile isWordChar).length with
      | nil => rw [hr] at htwo; cases htwo
      | cons sep r2 =>
        rw [hr, h2] at htwo
        have hn := ownerMatchTwo_name _ sep r2 name len htwo
        rw [hn]
        intro hcontra
        rcases List.append_eq_nil.mp hcontra with ⟨_, h3⟩
        cases h3
    | none =>
      rw [htwo] at h
      by_cases hcol : wsThenColon (l.drop (l.takeWhile isWordChar).length) = true
      · rw [if_pos hcol] at h
        have h2 := Option.some.inj h
        injection h2 with h3 h4
        rw [← h3]
        exact hw1
      · rw [if_neg hcol] at h
        cases h

theorem inferOwner_ne_nil (att : List Str) (line : Str)
    (hatt : ∀ a ∈ att, a ≠ []) : inferOwner att line ≠ [] := by
  induction att with
  | nil => simp [inferOwner, defaultOwner]
  | cons a rest ih =>
    unfold inferOwner
    by_cases ha : attendeeHit (lowerStr line) a
    · rw [if_pos ha]
      exact hatt a (List.mem_cons_self a rest)
    · rw [if_neg ha]
      exact ih (fun x hx => hatt x (List.mem_cons_of_mem a hx))

theorem ownerNameTwo_name (w1 : Str) (sep : Char) (r2 name : Str)
    (h : ownerNameTwo w1 (sep :: r2) = some name) :
    name = w1 ++ sep :: r2.takeWhile isWordChar := by
  have hred : ownerNameTwo w1 (sep :: r2) =
      (if isWsChar sep ∧ r2.takeWhile isWordChar ≠ [] ∧
          wsThenModal (r2.drop (r2.takeWhile isWordChar).length) then
        some (w1 ++ sep :: r2.takeWhile isWordChar)
       else none) := rfl
  rw [hred] at h
  by_cases hc : isWsChar sep ∧ r2.takeWhile isWordChar ≠ [] ∧
      wsThenModal (r2.drop (r2.takeWhile isWordChar).length)
  · rw [if_pos hc] at h
    exact (Option.some.inj h).symm
  · rw [if_neg hc] at h
    cases h

theorem ownerNameMatch_ne_nil (l name : Str)
    (h : ownerNameMatch l = some name) : name ≠ [] := by
  unfold ownerNameMatch at h
  by_cases hw1 : l.takeWhile isWordChar = []
  · rw [if_pos hw1] at h; cases h
  · rw [if_neg hw1] at h
    cases htwo : ownerNameTwo (l.takeWhile isWordChar)
        (l.drop (l.takeWhile isWordChar).length) with
    | some n =>
      rw [htwo] at h
      have h2 : n = name := Option.some.inj h
      cases hr : l.drop (l.takeWhile isWordChar).length with
      | nil => rw [hr] at htwo; cases htwo
      | cons sep r2 =>
        rw [hr, h2] at htwo
        have hn := ownerNameTwo_name _ sep r2 name htwo
        rw [hn]
        intro hcontra
        rcases List.append_eq_nil.mp hcontra with ⟨_, h3⟩
        cases h3
    | none =>
      rw [htwo] at h
      by_cases hmod : wsThenModal (l.drop (l.takeWhile isWordChar).length) = true
      · rw [if_pos hmod] at h
        rw [← Option.some.inj h]
        exact hw1
      · rw [if_neg hmod] at h
        cases h

theorem takeWhile_eq_self (p : Char → Bool) :
    ∀ t : Str, (∀ c ∈ t, p c = true) → t.takeWhile p = t := by
  intro t
  induction t with
  | nil => intro _; rfl
  | cons a r ih =>
    intro h
    rw [List.takeWhile_cons_of_pos (h a (List.mem_cons_self a r))]
    rw [ih (fun c hc => h c (List.mem_cons_of_mem a hc))]

theorem ciStarts_length_le (pat l : Str) (h : ciStarts pat l = true) :
    pat.length ≤ l.length := by
  unfold ciStarts at h
  have := startsWithStr_length_le pat (lowerStr l) h
  rwa [lowerStr, List.length_map] at this

theorem tryModalOne_len (base : Nat) (m r2 : Str) (len : Nat)
    (h : tryModalOne base m r2 = some len)
    (hterm : ∀ c ∈ r2, notLineTerm c = true) : len = base + r2.length := by
  unfold tryModalOne at h
  by_cases hc : ciStarts m r2 ∧ wsRunLen (r2.drop m.length) ≠ 0 ∧
      (r2.drop m.length).drop (wsRunLen (r2.drop m.length)) ≠ []
  · rw [if_pos hc] at h
    have hlen := Option.some.inj h
    have h1 : m.length ≤ r2.length := ciStarts_length_le m r2 hc.1
    have h2 : wsRunLen (r2.drop m.length) ≤ (r2.drop m.length).length :=
      wsRunLen_le _
    have h3 : ((r2.drop m.length).drop
        (wsRunLen (r2.drop m.length))).takeWhile notLineTerm =
        (r2.drop m.length).drop (wsRunLen (r2.drop m.length)) := by
      apply takeWhile_eq_self
      intro c hcmem
      exact hterm c (List.drop_subset _ _ (List.drop_subset _ _ hcmem))
    rw [h3] at hlen
    rw [List.length_drop, List.length_drop] at hlen
    rw [List.length_drop] at h2
    omega
  · rw [if_neg hc] at h
    cases h

theorem tryModals_len (base : Nat) (r2 : Str) :
    ∀ (ms : List Str) (len : Nat), tryModals base r2 ms = some len →
    (∀ c ∈ r2, notLineTerm c = true) → len = base + r2.length := by
  intro ms
  induction ms with
  | nil => intro len h _; cases h
  | cons m rest ih =>
    intro len h hterm
    unfold tryModals at h
    cases hone : tryModalOne base m r2 with
    | some l2 =>
      rw [hone] at h
      have := Option.some.inj h
      rw [← this]
      exact tryModalOne_len base m r2 l2 hone hterm
    | none =>
      rw [hone] at h
      exact ih len h hterm

theorem tryName_len (n rest : Str) (len : Nat)
    (h : tryName n rest = some len)
    (hterm : ∀ c ∈ rest, notLineTerm c = true) : len = rest.length := by
  unfold tryName at h
  by_cases hc : ciStarts n rest ∧ wsRunLen (rest.drop n.length) ≠ 0
  · rw [if_pos hc] at h
    have h1 : n.length ≤ rest.length := ciStarts_length_le n rest hc.1
    have h2 : wsRunLen (rest.drop n.length) ≤ (rest.drop n.length).length :=
      wsRunLen_le _
    have h3 := tryModals_len _ _ modalWords len h
      (fun c hcmem => hterm c (List.drop_subset _ _ (List.drop_subset _ _ hcmem)))
    rw [List.length_drop, List.length_drop] at h3
    rw [List.length_drop] at h2
    omega
  · rw [if_neg hc] at h
    cases h

theorem standHere_len (rest : Str) :
    ∀ (ns : List Str) (len : Nat), standHere rest ns = some len →
    (∀ c ∈ rest, notLineTerm c = true) → len = rest.length := by
  intro ns
  induction ns with
  | nil => intro len h _; cases h
  | cons n ns2 ih =>
    intro len h hterm
    unfold standHere at h
    cases hn : tryName n rest with
    | some l2 =>
      rw [hn] at h
      rw [← Option.some.inj h]
      exact tryName_len n rest l2 hn hterm
    | none =>
      rw [hn] at h
      exact ih len h hterm

theorem standHere_head (rest : Str) :
    ∀ (ns : List Str),
    (∀ n ∈ ns, n ≠ [] ∧ isWsChar (n.headD 'x') = false) →
    ∀ len, standHere rest ns = some len →
    ∃ c r, rest = c :: r ∧ isWsChar c = false := by
  intro ns
  induction ns with
  | nil => intro _ len h; cases h
  | cons n ns2 ih =>
    intro hgood len h
    unfold standHere at h
    cases hn : tryName n rest with
    | some l2 =>
      rw [hn] at h
      unfold tryName at hn
      by_cases hc : ciStarts n rest ∧ wsRunLen (rest.drop n.length) ≠ 0
      · obtain ⟨hne, hhead⟩ := hgood n (List.mem_cons_self n ns2)
        cases hno : n with
        | nil => exact absurd hno hne
        | cons nh nt =>
          rw [hno] at hc
          cases hr : rest with
          | nil =>
            rw [hr] at hc
            have : ciStarts (nh :: nt) [] = false := rfl
            rw [this] at hc
            cases hc.1
          | cons c r =>
            refine ⟨c, r, rfl, ?_⟩
            have hci := hc.1
            rw [hr] at hci
            unfold ciStarts lowerStr at hci
            rw [List.map_cons] at hci
            simp only [startsWithStr, Bool.and_eq_true, beq_iff_eq] at hci
            by_contra hws
            have hws2 : isWsChar c = true := by
              cases hb : isWsChar c
              · exact absurd hb hws
              · rfl
            have := lowerChar_of_ws c hws2
            rw [this] at hci
            rw [hno] at hhead
            simp only [List.headD_cons] at hhead
            rw [← hci.1] at hws2
            rw [hws2] at hhead
            cases hhead
      · rw [if_neg hc] at hn
        cases hn
    | none =>
      rw [hn] at h
      exact ih (fun x hx => hgood x (List.mem_cons_of_mem n hx)) len h

theorem knownNames_heads :
    ∀ n ∈ knownNames, n ≠ [] ∧ isWsChar (n.headD 'x') = false := by decide

theorem standScan_struct : ∀ (t m : Str), standScan t = some m →
    (∀ c ∈ t, notLineTerm c = true) →
    ∃ pre, pre ++ m = t ∧ ∃ c r, m = c :: r ∧ isWsChar c = false := by
  intro t
  induction t with
  | nil => intro m h _; cases h
  | cons a r ih =>
    intro m h hterm
    unfold standScan at h
    cases hsh : standHere (a :: r) knownNames with
    | some len =>
      rw [hsh] at h
      have hlen := standHere_len (a :: r) knownNames len hsh hterm
      rw [hlen] at h
      have h2 : some ((a :: r).take (a :: r).length) = some m := h
      rw [List.take_length] at h2
      obtain ⟨c, r2, hcr, hws⟩ := standHere_head (a :: r) knownNames
        knownNames_heads len hsh
      have hmeq : a :: r = m := Option.some.inj h2
      exact ⟨[], by rw [List.nil_append, hmeq], c, r2, hmeq ▸ hcr, hws⟩
    | none =>
      rw [hsh] at h
      obtain ⟨pre, hpre, c, r2, hm, hws⟩ :=
        ih m h (fun c hc => hterm c (List.mem_cons_of_mem a hc))
      exact ⟨a :: pre, by rw [List.cons_append, hpre], c, r2, hm, hws⟩

theorem standalone_good (l m : Str) (htrim : trimStr l = l)
    (hterm : ∀ c ∈ l, notLineTerm c = true)
    (h : standaloneMatch l = some m) : m ≠ [] ∧ trimStr m = m := by
  obtain ⟨pre, hpre, c, r, hm, hws⟩ := standScan_struct l m h hterm
  have hmne : m ≠ [] := by rw [hm]; simp
  refine ⟨hmne, trimStr_eq_self m ?_ ?_⟩
  · intro c' r' h'
    rw [hm] at h'
    cases h'
    exact hws
  · intro c' h'
    apply trimStr_getLast_not_ws l c'
    rw [htrim, ← hpre, getLast?_append_right' pre m hmne]
    exact h'

theorem laterRules_good (att : List Str) (s : ScanState) (line : Str)
    (hatt : ∀ a ∈ att, a ≠ [])
    (hown : ∀ o, s.currentOwner = some o → o ≠ [])
    (htrim : trimStr line = line)
    (hterm : ∀ c ∈ line, notLineTerm c = true) :
    ∀ it ∈ laterRules att s line, goodItem it := by
  intro it hit
  unfold laterRules at hit
  rw [List.mem_append] at hit
  rcases hit with h | h
  · by_cases hin : s.inAction = true
    · rw [if_pos hin] at h
      by_cases hlen : 10 < line.length
      · rw [if_pos hlen] at h
        rcases List.mem_singleton.mp h with rfl
        obtain ⟨h1, h2⟩ := stripBullet_good line htrim (by omega)
        refine ⟨h1, h2, ?_⟩
        cases ho : s.currentOwner with
        | some o =>
          simp only [ho, Option.getD_some]
          exact hown o ho
        | none =>
          simp only [ho, Option.getD_none]
          exact inferOwner_ne_nil att line hatt
      · rw [if_neg hlen] at h
        cases h
    · rw [if_neg hin] at h
      cases h
  · by_cases hin : s.inAction = true
    · rw [if_pos hin] at h
      cases h
    · rw [if_neg hin] at h
      cases hm : standaloneMatch line with
      | some m =>
        rw [hm] at h
        rcases List.mem_singleton.mp h with rfl
        obtain ⟨h1, h2⟩ := standalone_good line m htrim hterm hm
        refine ⟨h1, h2, ?_⟩
        cases hon : ownerNameMatch line with
        | some n =>
          simp only [hon, Option.getD_some]
          exact ownerNameMatch_ne_nil line n hon
        | none =>
          simp only [hon, Option.getD_none]
          simp [defaultOwner]
      | none =>
        rw [hm] at h
        cases h

theorem processLine_owner_inside (att : List Str) (s : ScanState) (raw : Str)
    (nl : Str × Nat)
    (hne : (trimStr raw).isEmpty = false)
    (hsec : matchesSection (trimStr raw) = false)
    (hend : (matchesEnd (trimStr raw) && s.inAction) = false)
    (hom : ownerMatch (trimStr raw) = some nl)
    (hin : s.inAction = true) :
    processLine att s raw =
      (⟨true, some nl.1⟩,
       if (trimStr ((trimStr raw).drop nl.2)).isEmpty then []
       else [⟨trimStr ((trimStr raw).drop nl.2), nl.1⟩]) := by
  unfold processLine
  rw [hin] at hend
  simp only [hne, Bool.false_eq_true, if_false, hsec, hend, hom, hin, if_true]

theorem processLine_later (att : List Str) (s : ScanState) (raw : Str)
    (hne : (trimStr raw).isEmpty = false)
    (hsec : matchesSection (trimStr raw) = false)
    (hend : (matchesEnd (trimStr raw) && s.inAction) = false)
    (homN : ownerMatch (trimStr raw) = none ∨ s.inAction = false) :
    processLine att s raw = (s, laterRules att s (trimStr raw)) := by
  unfold processLine
  simp only [hne, Bool.false_eq_true, if_false, hsec, hend]
  cases hom : ownerMatch (trimStr raw) with
  | some nl =>
    rcases homN with h | h
    · rw [h] at hom; cases hom
    · simp only [h, Bool.false_eq_true, if_false]
  | none => simp only

theorem processLine_good (att : List Str) (s : ScanState) (raw : Str)
    (hatt : ∀ a ∈ att, a ≠ [])
    (hown : ∀ o, s.currentOwner = some o → o ≠ [])
    (hterm : ∀ c ∈ raw, notLineTerm c = true) :
    (∀ o, (processLine att s raw).1.currentOwner = some o → o ≠ []) ∧
    (∀ it ∈ (processLine att s raw).2, goodItem it) := by
  have htrimmem : ∀ c ∈ trimStr raw, notLineTerm c = true :=
    fun c hc => hterm c (trimStr_mem_subset raw c hc)
  have htrimfix : trimStr (trimStr raw) = trimStr raw := trimStr_idem raw
  by_cases he : (trimStr raw).isEmpty = true
  · have hpl : processLine att s raw = (s, []) := by
      unfold processLine
      rw [if_pos he]
    rw [hpl]
    exact ⟨hown, by intro it hit; cases hit⟩
  · have hne : (trimStr raw).isEmpty = false := by
      cases hb : (trimStr raw).isEmpty
      · rfl
      · exact absurd hb he
    by_cases hsec : matchesSection (trimStr raw) = true
    · rw [processLine_header att s raw hsec]
      exact ⟨hown, by intro it hit; cases hit⟩
    · have hsec2 : matchesSection (trimStr raw) = false := by
        cases hb : matchesSection (trimStr raw)
        · rfl
        · exact absurd hb hsec
      by_cases hendc : (matchesEnd (trimStr raw) && s.inAction) = true
      · have hend2 : matchesEnd (trimStr raw) = true := by
          rcases Bool.and_eq_true_iff.mp hendc with ⟨h1, _⟩
          exact h1
        have hin2 : s.inAction = true := by
          rcases Bool.and_eq_true_iff.mp hendc with ⟨_, h2⟩
          exact h2
        rw [processLine_end att s raw hsec2 hend2 hin2]
        exact ⟨hown, by intro it hit; cases hit⟩
      · have hend3 : (matchesEnd (trimStr raw) && s.inAction) = false := by
          cases hb : (matchesEnd (trimStr raw) && s.inAction)
          · rfl
          · exact absurd hb hendc
        cases hom : ownerMatch (trimStr raw) with
        | some nl =>
          by_cases hin : s.inAction = true
          · rw [processLine_owner_inside att s raw nl hne hsec2 hend3 hom hin]
            constructor
            · intro o hoeq
              simp only [Option.some.injEq] at hoeq
              rw [← hoeq]
              exact ownerMatch_name_ne_nil (trimStr raw) nl.1 nl.2 (by rw [hom])
            · intro it hit
              by_cases hrest : (trimStr ((trimStr raw).drop nl.2)).isEmpty = true
              · rw [if_pos hrest] at hit
                cases hit
              · rw [if_neg hrest] at hit
                rcases List.mem_singleton.mp hit with rfl
                refine ⟨?_, trimStr_idem _, ?_⟩
                · intro hc
                  have hc2 : trimStr ((trimStr raw).drop nl.2) = [] := hc
                  rw [hc2] at hrest
                  exact hrest rfl
                · exact ownerMatch_name_ne_nil (trimStr raw) nl.1 nl.2 (by rw [hom])
          · have hin2 : s.inAction = false := by
              cases hb : s.inAction
              · rfl
              · exact absurd hb hin
            rw [processLine_later att s raw hne hsec2 hend3 (Or.inr hin2)]
            exact ⟨hown, laterRules_good att s (trimStr raw) hatt hown htrimfix htrimmem⟩
        | none =>
          rw [processLine_later att s raw hne hsec2 hend3 (Or.inl hom)]
          exact ⟨hown, laterRules_good att s (trimStr raw) hatt hown htrimfix htrimmem⟩

theorem scanLines_good (att : List Str) (hatt : ∀ a ∈ att, a ≠ []) :
    ∀ (lines : List Str) (s : ScanState),
    (∀ o, s.currentOwner = some o → o ≠ []) →
    (∀ l ∈ lines, ∀ c ∈ l, notLineTerm c = true) →
    ∀ it ∈ (scanLines att s lines).2, goodItem it := by
  intro lines
  induction lines with
  | nil => intro s _ _ it hit; cases hit
  | cons l rest ih =>
    intro s hown hterm it hit
    have hpl := processLine_good att s l hatt hown
      (hterm l (List.mem_cons_self l rest))
    simp only [scanLines] at hit
    cases hp : processLine att s l with
    | mk s1 items =>
      rw [hp] at hit hpl
      cases hq : scanLines att s1 rest with
      | mk s2 items2 =>
        rw [hq] at hit
        simp only [List.mem_append] at hit
        rcases hit with h | h
        · exact hpl.2 it h
        · have := ih s1 hpl.1
            (fun x hx => hterm x (List.mem_cons_of_mem l hx)) it
          rw [hq] at this
          exact this h

/-- C4 (counterexample to the claim as stated): the owner-prefix line
`"Blake: - send the deck"` inside a section emits text `"- send the
deck"`, whose leading bullet marker is not stripped (its first character
is `'-'`); and with the attendee list containing the empty name, the
emitted owner is the empty string. -/
theorem items_wellformed_counterexample :
    extractActionItems "Next Steps\nBlake: - send the deck".data [] [] [] =
      [⟨"- send the deck".data, "Blake".data⟩] ∧
    ("- send the deck".data).headD ' ' = '-' ∧
    extractActionItems "Next Steps\nreview the documents".data [] [] [ [] ] =
      [⟨"review the documents".data, []⟩] :=
  ⟨by decide, by decide, by decide⟩

/-- C4 (amended): for panel text free of carriage returns and Unicode
line separators, and attendee lists with non-empty names, every emitted
item has non-empty, trimmed text and a non-empty owner.  (Leading-bullet
stripping is applied only by the in-section plain-content rule, not to
owner-prefix remainders, so it is not part of the invariant.) -/
theorem items_wellformed (p t d : Str) (att : List Str)
    (hatt : ∀ a ∈ att, a ≠ [])
    (hterm : ∀ c ∈ p, c = '\n' ∨ notLineTerm c = true) :
    ∀ it ∈ extractActionItems p t d att, goodItem it := by
  intro it hit
  unfold extractActionItems at hit
  have hlines : ∀ l ∈ splitNewlines p, ∀ c ∈ l, notLineTerm c = true := by
    intro l hl c hc
    obtain ⟨hcp, hcn⟩ := splitNewlines_chars p l hl c hc
    rcases hterm c hcp with h | h
    · exact absurd h hcn
    · exact h
  have hscan := scanLines_good att hatt (splitNewlines p) ⟨false, none⟩
    (by intro o h; cases h) hlines
  have hsub : (dedup (scanLines att ⟨false, none⟩ (splitNewlines p)).2).Sublist
      (scanLines att ⟨false, none⟩ (splitNewlines p)).2 := dedupAux_sublist _ []
  exact hscan it (hsub.subset hit)

/-- Witness for C4 (amended) at a concrete panel and the item it emits. -/
theorem items_wellformed_witness :
    goodItem ⟨"send the deck".data, "Blake".data⟩ :=
  items_wellformed "Next Steps\nBlake: send the deck".data [] [] []
    (by decide) (by decide) ⟨"send the deck".data, "Blake".data⟩ (by decide)
